import Mathlib

/-!
Bit-field, sign-extension and byte-order helpers of `include/helpers/utils.hpp`

A shallow embedding of the helpers of namespace `hex`:
`extract`, `signExtend`, the two overloads of `changeEndianess`, and the scope guard
`ScopeExit`.

Machine integers are natural numbers reduced modulo `2 ^ bits` wherever the C++
operation wraps.  A C++ operation whose behaviour is undefined (a shift whose count
is negative or not smaller than the width of the promoted left operand) yields
`none`; the one thrown exception, `std::invalid_argument`, is an `Except` error.
-/

namespace hex

/-! ## Definitions -/

/-- The unsigned integer types `u8`, `u16`, `u32`, `u64` a template parameter
ranges over. -/
inductive UType where
  | u8
  | u16
  | u32
  | u64
  deriving DecidableEq, Repr

/-- The C++ `sizeof(T)` in bytes. -/
def UType.sizeof : UType → Nat
  | .u8 => 1
  | .u16 => 2
  | .u32 => 4
  | .u64 => 8

/-- Number of value bits of `T`, `sizeof(T) * 8`. -/
def UType.bits (T : UType) : Nat := T.sizeof * 8

/-- The value `std::numeric_limits<T>::max()`. -/
def UType.max (T : UType) : Nat := 2 ^ T.bits - 1

/-- Width in bits of the type an operand of type `T` has after integral promotion:
`u8` and `u16` are promoted to the 32-bit `int`, `u32` and `u64` keep their width. -/
def UType.promotedBits : UType → Nat
  | .u8 => 32
  | .u16 => 32
  | .u32 => 32
  | .u64 => 64

/-- C++ `x << n` on an operand of `bits` bits holding the non-negative value `x`:
the product with `2 ^ n` reduced modulo `2 ^ bits`; undefined (`none`) when the count
is negative or at least `bits`. -/
def shl (bits : Nat) (x : Nat) (n : Int) : Option Nat :=
  if 0 ≤ n ∧ n < (bits : Int) then some ((x <<< n.toNat) % 2 ^ bits) else none

/-- C++ `x >> n` on an operand of `bits` bits holding the non-negative value `x`:
undefined (`none`) when the count is negative or at least `bits`. -/
def shr (bits : Nat) (x : Nat) (n : Int) : Option Nat :=
  if 0 ≤ n ∧ n < (bits : Int) then some (x >>> n.toNat) else none

/-- Conversion of an `int` to the 64-bit unsigned `size_t`. -/
def toSizeT (i : Int) : Int := i % 2 ^ 64

/-- Subtraction of 64-bit unsigned values, wrapping modulo `2 ^ 64`. -/
def sub64 (a b : Nat) : Nat := (a + 2 ^ 64 - b % 2 ^ 64) % 2 ^ 64

/-- The function `extract(from, to, value)` for `value` of the unsigned type `T`
(utils.hpp, lines 38-41).  The first shift count is computed in `size_t`, the mask is
converted back to `T`, and `value & mask` is shifted in the promoted type before it
is zero-extended to `u64`. -/
def extract (T : UType) (fromBit toBit : Nat) (value : Nat) : Option Nat := do
  let count := toSizeT (((T.sizeof * 8 : Nat) : Int) - 1 - toSizeT ((fromBit : Int) - (toBit : Int)))
  let m1 ← shr T.promotedBits T.max count
  let m2 ← shl T.promotedBits m1 (toBit : Int)
  let mask := m2 % 2 ^ T.bits
  let r ← shr T.promotedBits (value &&& mask) (toBit : Int)
  pure (r % 2 ^ 64)

/-- The function `signExtend(value, currWidth, targetWidth)` on `u64`
(utils.hpp, lines 43-46); every shift is a shift of an unsigned 64-bit word. -/
def signExtend (value : Nat) (currWidth targetWidth : Nat) : Option Nat := do
  let mask ← shl 64 1 ((currWidth : Int) - 1)
  let t ← shl 64 (sub64 (value ^^^ mask) mask) (64 - (targetWidth : Int))
  shr 64 t (64 - (targetWidth : Int))

/-- The two enumerators `little` and `big` of `std::endian`; the host's
`std::endian::native` is a parameter of the functions below. -/
inductive Endian where
  | little
  | big
  deriving DecidableEq, Repr

/-- The `n` low bytes of `x`, least significant byte first. -/
def toBytes : Nat → Nat → List Nat
  | 0, _ => []
  | n + 1, x => x % 256 :: toBytes n (x / 256)

/-- The number whose bytes, least significant first, are `l`. -/
def ofBytes : List Nat → Nat
  | [] => 0
  | b :: bs => b + 256 * ofBytes bs

/-- Byte swap of an `n`-byte unsigned word: the argument is converted to the `n`-byte
unsigned type (its `n` low bytes are kept) and the order of these bytes is reversed.
This is the documented behaviour of the compiler builtins `__builtin_bswap16`,
`__builtin_bswap32` and `__builtin_bswap64`, which have no source in the repository. -/
def bswap (n x : Nat) : Nat := ofBytes (toBytes n x).reverse

/-- Compiler builtin `__builtin_bswap16` on `uint16_t`. -/
def bswap16 (x : Nat) : Nat := bswap 2 x

/-- Compiler builtin `__builtin_bswap32` on `uint32_t`. -/
def bswap32 (x : Nat) : Nat := bswap 4 x

/-- Compiler builtin `__builtin_bswap64` on `uint64_t`. -/
def bswap64 (x : Nat) : Nat := bswap 8 x

/-- Conversion of a non-negative value to the unsigned type `T`. -/
def UType.cast (T : UType) (x : Nat) : Nat := x % 2 ^ T.bits

/-- The overload `changeEndianess(T value, std::endian endian)` (utils.hpp, lines
54-69); `if constexpr` selects the swap by `sizeof(T)`.  The `static_assert` branch
rejects every other size at compile time, so the last branch is the one of size 8. -/
def changeEndianess (native : Endian) (T : UType) (value : Nat) (endian : Endian) : Nat :=
  if endian = native then value
  else if T.sizeof = 1 then value
  else if T.sizeof = 2 then T.cast (bswap16 value)
  else if T.sizeof = 4 then T.cast (bswap32 value)
  else T.cast (bswap64 value)

/-- The exception thrown by the runtime-width overload. -/
inductive Exn where
  | invalid_argument (what : String)
  deriving DecidableEq, Repr

/-- The overload `changeEndianess(T value, size_t size, std::endian endian)`
(utils.hpp, lines 71-86): the swap is selected by the run-time `size`, its result is
converted back to `T`. -/
def changeEndianessSized (native : Endian) (T : UType) (value : Nat) (size : Nat)
    (endian : Endian) : Except Exn Nat :=
  if endian = native then .ok value
  else if size = 1 then .ok value
  else if size = 2 then .ok (T.cast (bswap16 value))
  else if size = 4 then .ok (T.cast (bswap32 value))
  else if size = 8 then .ok (T.cast (bswap64 value))
  else .error (.invalid_argument "Invalid value size!")

/-- Byte `i` of `x`, byte 0 being the least significant. -/
def byteAt (x i : Nat) : Nat := x / 256 ^ i % 256

/-- Zero extension of an unsigned value to 64 bits. -/
def zeroExtend64 (x : Nat) : Nat := x % 2 ^ 64

/-- The mask computed by the first statement of `extract` (utils.hpp, line 39): the
all-ones value of `T` shifted right by `(sizeof(T) * 8 - 1) - (from - to)`, shifted left
by `to`, and converted to `T`. -/
def extractMask (T : UType) (fromBit toBit : Nat) : Option Nat := do
  let count := toSizeT (((T.sizeof * 8 : Nat) : Int) - 1 - toSizeT ((fromBit : Int) - (toBit : Int)))
  let m1 ← shr T.promotedBits T.max count
  let m2 ← shl T.promotedBits m1 (toBit : Int)
  pure (m2 % 2 ^ T.bits)

/-- The class `ScopeExit` (utils.hpp, lines 91-103): the flag `m_released` and the stored
action `m_func`.  The action, a `std::function<void()>`, is a transformer of the program
state `σ` outside the guard. -/
structure ScopeExit (σ : Type) where
  m_released : Bool
  m_func : σ → σ

/-- The constructor `ScopeExit(func)` (line 93): stores the action; `m_released` has its
default member initialiser `false`. -/
def ScopeExit.construct {σ : Type} (func : σ → σ) : ScopeExit σ :=
  { m_released := false, m_func := func }

/-- The method `release()` (lines 96-98): sets `m_released`; the program state is passed
through. -/
def ScopeExit.release {σ : Type} (self : ScopeExit σ) (world : σ) : ScopeExit σ × σ :=
  ({ self with m_released := true }, world)

/-- The destructor `~ScopeExit()` (line 94): runs the action unless the guard was
released. -/
def ScopeExit.destruct {σ : Type} (self : ScopeExit σ) (world : σ) : σ :=
  if !self.m_released then self.m_func world else world

/-- Leaving a block: C++ destroys the guards declared in the block, given in the order
of their declaration, in the reverse of that order. -/
def leaveScope {σ : Type} (guards : List (ScopeExit σ)) (world : σ) : σ :=
  guards.reverse.foldl (fun w g => g.destruct w) world

/-- An action that appends one entry to a log. -/
def logAction {α : Type} (entry : α) (log : List α) : List α := log ++ [entry]


/-! ## Auxiliary facts on shifts and masks -/

theorem shr_some (bits x n : Nat) (h : n < bits) : shr bits x (n : Int) = some (x >>> n) := by
  have h1 : (0 : Int) ≤ (n : Int) ∧ (n : Int) < (bits : Int) := ⟨by omega, by omega⟩
  simp [shr, h1]

theorem shl_some (bits x n : Nat) (h : n < bits) :
    shl bits x (n : Int) = some ((x <<< n) % 2 ^ bits) := by
  have h1 : (0 : Int) ≤ (n : Int) ∧ (n : Int) < (bits : Int) := ⟨by omega, by omega⟩
  simp [shl, h1]

theorem ones_shiftRight (n k : Nat) : (2 ^ n - 1) >>> k = 2 ^ (n - k) - 1 := by
  apply Nat.eq_of_testBit_eq
  intro j
  simp only [Nat.testBit_shiftRight, Nat.testBit_two_pow_sub_one]
  congr 1
  apply propext
  omega

theorem ones_shiftLeft_lt (a t : Nat) : (2 ^ a - 1) <<< t < 2 ^ (a + t) := by
  rw [Nat.shiftLeft_eq, Nat.pow_add]
  have h : 0 < 2 ^ a := Nat.two_pow_pos a
  exact Nat.mul_lt_mul_of_lt_of_le (by omega) (Nat.le_refl _) (Nat.two_pow_pos t)

theorem and_shiftLeft_shiftRight (v m t : Nat) : (v &&& (m <<< t)) >>> t = (v >>> t) &&& m := by
  apply Nat.eq_of_testBit_eq
  intro j
  simp [Nat.testBit_shiftRight, Nat.testBit_shiftLeft]

theorem extract_count (T : UType) (fromBit toBit : Nat) (hle : toBit ≤ fromBit)
    (hlt : fromBit < T.bits) :
    toSizeT (((T.sizeof * 8 : Nat) : Int) - 1 - toSizeT ((fromBit : Int) - (toBit : Int)))
      = ((T.bits - 1 - (fromBit - toBit) : Nat) : Int) := by
  unfold toSizeT
  cases T <;> simp only [UType.bits, UType.sizeof] at hlt ⊢ <;> omega

theorem promotedBits_ge (T : UType) : T.bits ≤ T.promotedBits := by
  cases T <;> simp [UType.bits, UType.sizeof, UType.promotedBits]

/-- The mask of `extract` on a valid range: `fromBit - toBit + 1` ones shifted to
position `toBit`; neither the shift nor the conversion to `T` loses a bit. -/
theorem extract_mask (T : UType) (fromBit toBit : Nat) (hle : toBit ≤ fromBit)
    (hlt : fromBit < T.bits) :
    (((T.max >>> (T.bits - 1 - (fromBit - toBit))) <<< toBit) % 2 ^ T.promotedBits) % 2 ^ T.bits
      = (2 ^ (fromBit - toBit + 1) - 1) <<< toBit := by
  have hP := promotedBits_ge T
  have e : T.bits - (T.bits - 1 - (fromBit - toBit)) = fromBit - toBit + 1 := by omega
  rw [UType.max, ones_shiftRight, e]
  have hlt2 : (2 ^ (fromBit - toBit + 1) - 1) <<< toBit < 2 ^ T.bits := by
    refine Nat.lt_of_lt_of_le (ones_shiftLeft_lt _ _) (Nat.pow_le_pow_right (by decide) ?_)
    omega
  have hlt3 : (2 ^ (fromBit - toBit + 1) - 1) <<< toBit < 2 ^ T.promotedBits :=
    Nat.lt_of_lt_of_le hlt2 (Nat.pow_le_pow_right (by decide) hP)
  rw [Nat.mod_eq_of_lt hlt3, Nat.mod_eq_of_lt hlt2]

/-- On a valid range the mask of `extract` is defined and is the window of ones. -/
theorem extractMask_on_range (T : UType) (fromBit toBit : Nat) (hle : toBit ≤ fromBit)
    (hlt : fromBit < T.bits) :
    extractMask T fromBit toBit = some ((2 ^ (fromBit - toBit + 1) - 1) <<< toBit) := by
  have hP := promotedBits_ge T
  have h1 := shr_some T.promotedBits T.max (T.bits - 1 - (fromBit - toBit)) (by omega)
  have h2 := shl_some T.promotedBits (T.max >>> (T.bits - 1 - (fromBit - toBit))) toBit
    (by omega)
  simp only [extractMask, extract_count T fromBit toBit hle hlt, h1, h2, bind, Option.bind,
    pure, extract_mask T fromBit toBit hle hlt]

/-- The function `extract` masks the value with `extractMask` and shifts it down. -/
theorem extract_eq_bind_mask (T : UType) (fromBit toBit value : Nat) :
    extract T fromBit toBit value
      = (extractMask T fromBit toBit).bind (fun mask =>
          (shr T.promotedBits (value &&& mask) (toBit : Int)).bind (fun r =>
            some (r % 2 ^ 64))) := by
  simp only [extract, extractMask, bind, pure]
  rcases h1 : shr T.promotedBits T.max
      (toSizeT (((T.sizeof * 8 : Nat) : Int) - 1 - toSizeT ((fromBit : Int) - (toBit : Int))))
    with _ | m1
  · rfl
  · simp only [Option.some_bind, Option.bind]
    rcases h2 : shl T.promotedBits m1 (toBit : Int) with _ | m2
    · rfl
    · rfl

/-- On a valid range and a value of `T`, `extract` is defined and is the shift-and-mask
reference. -/
theorem extract_on_range (T : UType) (fromBit toBit value : Nat)
    (hv : value < 2 ^ T.bits) (hle : toBit ≤ fromBit) (hlt : fromBit < T.bits) :
    extract T fromBit toBit value
      = some ((value >>> toBit) &&& (2 ^ (fromBit - toBit + 1) - 1)) := by
  have hP := promotedBits_ge T
  have hbits : T.bits ≤ 64 := by cases T <;> simp [UType.bits, UType.sizeof]
  have hbound : (value >>> toBit) &&& (2 ^ (fromBit - toBit + 1) - 1) < 2 ^ 64 := by
    refine Nat.lt_of_le_of_lt Nat.and_le_left ?_
    refine Nat.lt_of_le_of_lt ?_ (Nat.lt_of_lt_of_le hv (Nat.pow_le_pow_right (by decide) hbits))
    rw [Nat.shiftRight_eq_div_pow]
    exact Nat.div_le_self _ _
  have h3 := fun x => shr_some T.promotedBits x toBit (by omega)
  rw [extract_eq_bind_mask, extractMask_on_range T fromBit toBit hle hlt]
  simp only [Option.some_bind, h3, and_shiftLeft_shiftRight, Nat.mod_eq_of_lt hbound]

theorem ones_shiftLeft (k t : Nat) : (2 ^ k - 1) <<< t = 2 ^ (k + t) - 2 ^ t := by
  rw [Nat.shiftLeft_eq, Nat.sub_mul, Nat.one_mul, Nat.pow_add]

theorem testBit_window (k t i : Nat) :
    ((2 ^ k - 1) <<< t).testBit i = decide (t ≤ i ∧ i < t + k) := by
  rw [Nat.testBit_shiftLeft, Nat.testBit_two_pow_sub_one]
  by_cases h1 : t ≤ i
  · by_cases h2 : i - t < k
    · have h3 : i < t + k := by omega
      simp [h1, h2, h3]
    · have h3 : ¬ (i < t + k) := by omega
      simp [h1, h2, h3]
  · have h0 : ¬ (i ≥ t) := by omega
    simp [h1, h0]

/-! ## Auxiliary facts for `signExtend` -/

theorem shl_shr_64 (x s : Nat) (hs : s ≤ 64) :
    ((x <<< s) % 2 ^ 64) >>> s = x % 2 ^ (64 - s) := by
  apply Nat.eq_of_testBit_eq
  intro j
  simp only [Nat.testBit_shiftRight, Nat.testBit_mod_two_pow, Nat.testBit_shiftLeft]
  have e : s + j - s = j := by omega
  rw [e]
  by_cases h : j < 64 - s
  · have h1 : s + j < 64 := by omega
    have h2 : s + j ≥ s := by omega
    simp [h, h1, h2]
  · have h1 : ¬ (s + j < 64) := by omega
    simp [h, h1]

theorem xor_one (a : Nat) : a ^^^ 1 = if a % 2 = 1 then a - 1 else a + 1 := by
  have h1 : (a ^^^ 1) / 2 = a / 2 := by rw [Nat.xor_div_two]; simp
  have h2 := @Nat.xor_mod_two_eq_one a 1
  split <;> omega

theorem xor_two_pow_split (v k : Nat) :
    v ^^^ 2 ^ k = 2 ^ k * ((v / 2 ^ k) ^^^ 1) + v % 2 ^ k := by
  apply Nat.eq_of_testBit_eq
  intro j
  rw [Nat.testBit_mul_pow_two_add _ (Nat.mod_lt _ (Nat.two_pow_pos k))]
  simp only [Nat.testBit_xor, Nat.testBit_two_pow, Nat.testBit_mod_two_pow,
    ← Nat.shiftRight_eq_div_pow, Nat.testBit_shiftRight]
  by_cases h : j < k
  · have h1 : ¬ (k = j) := by omega
    simp [h, h1]
  · have e : k + (j - k) = j := by omega
    rw [e]
    by_cases h2 : k = j
    · subst h2
      simp
    · have h3 : j - k ≠ 0 := by omega
      have h4 : Nat.testBit 1 (j - k) = false := by
        cases hh : Nat.testBit 1 (j - k)
        · rfl
        · exact absurd (Nat.testBit_one_eq_true_iff_self_eq_zero.mp hh) h3
      simp [h, h2, h4]

/-- Flipping bit `k`: subtracts `2 ^ k` when the bit is set, adds it otherwise. -/
theorem xor_two_pow (v k : Nat) :
    v ^^^ 2 ^ k = if v.testBit k then v - 2 ^ k else v + 2 ^ k := by
  rw [xor_two_pow_split, xor_one, Nat.testBit_to_div_mod]
  have hd := Nat.div_add_mod v (2 ^ k)
  have hpos := Nat.two_pow_pos k
  generalize v / 2 ^ k = q at hd ⊢
  generalize v % 2 ^ k = r at hd ⊢
  generalize 2 ^ k = p at hd hpos ⊢
  by_cases h : q % 2 = 1
  · have h1 : 1 ≤ q := by omega
    simp only [h, if_true, decide_True]
    have h2 : p * (q - 1) = p * q - p := by
      rw [Nat.mul_sub, Nat.mul_one]
    have h3 : p ≤ p * q := Nat.le_mul_of_pos_right _ h1
    omega
  · simp only [h, if_false, decide_False]
    rw [Nat.mul_add, Nat.mul_one]
    simp only [Bool.false_eq_true, if_false]
    omega

/-- Closed form of `signExtend` on valid widths: the sign trick on 64 bits, then the
low `targetWidth` bits of it (the right shift of an unsigned word fills with zeros). -/
theorem signExtend_eq (value currWidth targetWidth : Nat) (hc1 : 1 ≤ currWidth)
    (hc2 : currWidth ≤ 64) (ht1 : 1 ≤ targetWidth) (ht2 : targetWidth ≤ 64) :
    signExtend value currWidth targetWidth
      = some (sub64 (value ^^^ 2 ^ (currWidth - 1)) (2 ^ (currWidth - 1)) % 2 ^ targetWidth) := by
  have e1 : (currWidth : Int) - 1 = ((currWidth - 1 : Nat) : Int) := by omega
  have e2 : 64 - (targetWidth : Int) = ((64 - targetWidth : Nat) : Int) := by omega
  have hm : (1 <<< (currWidth - 1)) % 2 ^ 64 = 2 ^ (currWidth - 1) := by
    rw [Nat.one_shiftLeft]
    exact Nat.mod_eq_of_lt (Nat.pow_lt_pow_right (by decide) (by omega))
  have e3 : 64 - (64 - targetWidth) = targetWidth := by omega
  have h1 := shl_some 64 1 (currWidth - 1) (by omega)
  have h2 := fun x => shl_some 64 x (64 - targetWidth) (by omega)
  have h3 := fun x => shr_some 64 x (64 - targetWidth) (by omega)
  simp only [signExtend, e1, e2, h1, h2, h3, hm, bind, Option.bind,
    shl_shr_64 _ _ (Nat.sub_le 64 targetWidth), e3]

/-- A field with its sign bit set is extended by ones up to the target width. -/
theorem signExtend_neg (value currWidth targetWidth : Nat) (hc1 : 1 ≤ currWidth)
    (hct : currWidth ≤ targetWidth) (ht2 : targetWidth ≤ 64) (hv : value < 2 ^ currWidth)
    (hb : value.testBit (currWidth - 1) = true) :
    signExtend value currWidth targetWidth
      = some (value + (2 ^ targetWidth - 2 ^ currWidth)) := by
  rw [signExtend_eq value currWidth targetWidth hc1 (by omega) (by omega) ht2, xor_two_pow, hb]
  simp only [if_true, sub64]
  have hge := Nat.testBit_implies_ge hb
  have hcw : 2 ^ currWidth = 2 * 2 ^ (currWidth - 1) := by
    rw [← Nat.pow_succ', Nat.succ_eq_add_one, Nat.sub_add_cancel hc1]
  have hle : 2 ^ currWidth ≤ 2 ^ targetWidth := Nat.pow_le_pow_right (by decide) hct
  have h64 : 2 ^ targetWidth * 2 ^ (64 - targetWidth) = 2 ^ 64 := by
    rw [← Nat.pow_add, Nat.add_sub_cancel' ht2]
  have hK := Nat.two_pow_pos (64 - targetWidth)
  have hT64 : 2 ^ targetWidth ≤ 2 ^ 64 := Nat.pow_le_pow_right (by decide) ht2
  have hm64 : 2 ^ (currWidth - 1) < 2 ^ 64 := Nat.pow_lt_pow_right (by decide) (by omega)
  have hmm : 2 ^ (currWidth - 1) % 2 ^ 64 = 2 ^ (currWidth - 1) := Nat.mod_eq_of_lt hm64
  rw [hmm]
  have hx : value - 2 ^ (currWidth - 1) + 2 ^ 64 - 2 ^ (currWidth - 1)
      = value + (2 ^ targetWidth - 2 ^ currWidth)
        + 2 ^ targetWidth * (2 ^ (64 - targetWidth) - 1) := by
    rw [Nat.mul_sub, Nat.mul_one, h64]
    omega
  have hlt64 : value - 2 ^ (currWidth - 1) + 2 ^ 64 - 2 ^ (currWidth - 1) < 2 ^ 64 := by omega
  have hltT : value + (2 ^ targetWidth - 2 ^ currWidth) < 2 ^ targetWidth := by omega
  rw [Nat.mod_eq_of_lt hlt64, hx, Nat.add_mul_mod_self_left, Nat.mod_eq_of_lt hltT]

/-- A field with a clear sign bit is returned as it is. -/
theorem signExtend_nonneg (value currWidth targetWidth : Nat) (hc1 : 1 ≤ currWidth)
    (hct : currWidth ≤ targetWidth) (ht2 : targetWidth ≤ 64) (hv : value < 2 ^ currWidth)
    (hb : value.testBit (currWidth - 1) = false) :
    signExtend value currWidth targetWidth = some value := by
  rw [signExtend_eq value currWidth targetWidth hc1 (by omega) (by omega) ht2, xor_two_pow, hb]
  simp only [Bool.false_eq_true, if_false, sub64]
  have hle : 2 ^ currWidth ≤ 2 ^ targetWidth := Nat.pow_le_pow_right (by decide) hct
  have hT64 : 2 ^ targetWidth ≤ 2 ^ 64 := Nat.pow_le_pow_right (by decide) ht2
  have hm64 : 2 ^ (currWidth - 1) < 2 ^ 64 := Nat.pow_lt_pow_right (by decide) (by omega)
  rw [Nat.mod_eq_of_lt hm64]
  have hx : value + 2 ^ (currWidth - 1) + 2 ^ 64 - 2 ^ (currWidth - 1) = value + 2 ^ 64 := by
    omega
  have hv64 : value < 2 ^ 64 := by omega
  have hvT : value < 2 ^ targetWidth := by omega
  rw [hx, Nat.add_mod_right, Nat.mod_eq_of_lt hv64, Nat.mod_eq_of_lt hvT]

/-- Bits `k ..` of `v + (2 ^ t - 2 ^ k)` below `t` are all set when `v < 2 ^ k`. -/
theorem testBit_add_ones (v k t i : Nat) (hv : v < 2 ^ k) (hkt : k ≤ t) (hki : k ≤ i)
    (hit : i < t) : (v + (2 ^ t - 2 ^ k)).testBit i = true := by
  have e : 2 ^ t - 2 ^ k = 2 ^ k * (2 ^ (t - k) - 1) := by
    rw [Nat.mul_sub, Nat.mul_one, ← Nat.pow_add, Nat.add_sub_cancel' hkt]
  rw [e, Nat.add_comm, Nat.testBit_mul_pow_two_add _ hv]
  have h1 : ¬ (i < k) := by omega
  have h2 : i - k < t - k := by omega
  simp [h1, h2]

theorem add_ones_mod (v k t : Nat) (hv : v < 2 ^ k) (hkt : k ≤ t) :
    (v + (2 ^ t - 2 ^ k)) % 2 ^ k = v := by
  have e : 2 ^ t - 2 ^ k = 2 ^ k * (2 ^ (t - k) - 1) := by
    rw [Nat.mul_sub, Nat.mul_one, ← Nat.pow_add, Nat.add_sub_cancel' hkt]
  rw [e, Nat.add_mul_mod_self_left, Nat.mod_eq_of_lt hv]

/-- The sign trick on 64 bits does not change the low `currWidth` bits. -/
theorem sub64_xor_mod (value currWidth : Nat) (hc1 : 1 ≤ currWidth) (hc2 : currWidth ≤ 64) :
    sub64 (value ^^^ 2 ^ (currWidth - 1)) (2 ^ (currWidth - 1)) % 2 ^ currWidth
      = value % 2 ^ currWidth := by
  have hm64 : 2 ^ (currWidth - 1) < 2 ^ 64 := Nat.pow_lt_pow_right (by decide) (by omega)
  have hcw : 2 ^ currWidth = 2 * 2 ^ (currWidth - 1) := by
    rw [← Nat.pow_succ', Nat.succ_eq_add_one, Nat.sub_add_cancel hc1]
  have h64 : 2 ^ currWidth * 2 ^ (64 - currWidth) = 2 ^ 64 := by
    rw [← Nat.pow_add, Nat.add_sub_cancel' hc2]
  have hdvd : 2 ^ currWidth ∣ 2 ^ 64 := Nat.pow_dvd_pow 2 hc2
  have hK := Nat.two_pow_pos (64 - currWidth)
  simp only [sub64, Nat.mod_eq_of_lt hm64]
  rw [Nat.mod_mod_of_dvd _ hdvd, xor_two_pow]
  by_cases hb : value.testBit (currWidth - 1) = true
  · have hge := Nat.testBit_implies_ge hb
    simp only [hb, if_true]
    have hx : value - 2 ^ (currWidth - 1) + 2 ^ 64 - 2 ^ (currWidth - 1)
        = value + 2 ^ currWidth * (2 ^ (64 - currWidth) - 1) := by
      rw [Nat.mul_sub, Nat.mul_one, h64]
      have hle : 2 ^ currWidth ≤ 2 ^ 64 := Nat.pow_le_pow_right (by decide) hc2
      omega
    rw [hx, Nat.add_mul_mod_self_left]
  · simp only [hb, Bool.false_eq_true, if_false]
    have hx : value + 2 ^ (currWidth - 1) + 2 ^ 64 - 2 ^ (currWidth - 1)
        = value + 2 ^ currWidth * 2 ^ (64 - currWidth) := by
      rw [h64]
      omega
    rw [hx, Nat.add_mul_mod_self_left]

/-! ## Auxiliary facts on bytes and byte swaps -/

theorem toBytes_length (n x : Nat) : (toBytes n x).length = n := by
  induction n generalizing x with
  | zero => rfl
  | succ n ih => simp [toBytes, ih]

theorem toBytes_lt (n x b : Nat) (hb : b ∈ toBytes n x) : b < 256 := by
  induction n generalizing x with
  | zero => simp [toBytes] at hb
  | succ n ih =>
    simp only [toBytes, List.mem_cons] at hb
    rcases hb with rfl | hb
    · exact Nat.mod_lt _ (by decide)
    · exact ih _ hb

theorem ofBytes_toBytes (n x : Nat) : ofBytes (toBytes n x) = x % 256 ^ n := by
  induction n generalizing x with
  | zero => simp [toBytes, ofBytes, Nat.mod_one]
  | succ n ih => rw [toBytes, ofBytes, ih, Nat.pow_succ', Nat.mod_mul]

theorem toBytes_ofBytes (l : List Nat) (hl : ∀ b ∈ l, b < 256) :
    toBytes l.length (ofBytes l) = l := by
  induction l with
  | nil => rfl
  | cons b bs ih =>
    have hb : b < 256 := hl b (List.mem_cons_self _ _)
    have hbs : ∀ c ∈ bs, c < 256 := fun c hc => hl c (List.mem_cons_of_mem _ hc)
    have h1 : (b + 256 * ofBytes bs) % 256 = b := by omega
    have h2 : (b + 256 * ofBytes bs) / 256 = ofBytes bs := by omega
    simp only [List.length_cons, toBytes, ofBytes, h1, h2, ih hbs]

theorem ofBytes_lt (l : List Nat) (hl : ∀ b ∈ l, b < 256) : ofBytes l < 256 ^ l.length := by
  induction l with
  | nil => simp [ofBytes]
  | cons b bs ih =>
    have hb : b < 256 := hl b (List.mem_cons_self _ _)
    have hbs := ih (fun c hc => hl c (List.mem_cons_of_mem _ hc))
    simp only [ofBytes, List.length_cons, Nat.pow_succ']
    omega

theorem byteAt_ofBytes (l : List Nat) (hl : ∀ b ∈ l, b < 256) (i : Nat) :
    byteAt (ofBytes l) i = l.getD i 0 := by
  induction l generalizing i with
  | nil => simp [ofBytes, byteAt]
  | cons b bs ih =>
    have hb : b < 256 := hl b (List.mem_cons_self _ _)
    have hbs : ∀ c ∈ bs, c < 256 := fun c hc => hl c (List.mem_cons_of_mem _ hc)
    cases i with
    | zero =>
      simp only [byteAt, ofBytes, Nat.pow_zero, Nat.div_one, List.getD_cons_zero]
      omega
    | succ i =>
      have h2 : (b + 256 * ofBytes bs) / 256 = ofBytes bs := by omega
      have := ih hbs i
      simp only [byteAt] at this
      simp only [byteAt, ofBytes, Nat.pow_succ', ← Nat.div_div_eq_div_mul, h2,
        List.getD_cons_succ, this]

theorem reverse_toBytes_lt (n x b : Nat) (hb : b ∈ (toBytes n x).reverse) : b < 256 :=
  toBytes_lt n x b (List.mem_reverse.mp hb)

theorem bswap_lt (n x : Nat) : bswap n x < 256 ^ n := by
  have h := ofBytes_lt (toBytes n x).reverse (reverse_toBytes_lt n x)
  rwa [List.length_reverse, toBytes_length] at h

/-- Swapping twice gives back the `n` low bytes of the argument. -/
theorem bswap_bswap (n x : Nat) : bswap n (bswap n x) = x % 256 ^ n := by
  have hlen : (toBytes n x).reverse.length = n := by
    rw [List.length_reverse, toBytes_length]
  have h := toBytes_ofBytes (toBytes n x).reverse (reverse_toBytes_lt n x)
  rw [hlen] at h
  unfold bswap
  rw [h, List.reverse_reverse, ofBytes_toBytes]

theorem getD_toBytes (n x j : Nat) : (toBytes n x).getD j 0 = byteAt (x % 256 ^ n) j := by
  rw [← ofBytes_toBytes, byteAt_ofBytes _ (toBytes_lt n x)]

/-- Byte `i` of the swapped word is byte `n - 1 - i` of the argument. -/
theorem byteAt_bswap (n x i : Nat) (hi : i < n) :
    byteAt (bswap n x) i = byteAt (x % 256 ^ n) (n - 1 - i) := by
  unfold bswap
  rw [byteAt_ofBytes _ (reverse_toBytes_lt n x), ← getD_toBytes]
  have hlen := toBytes_length n x
  simp only [List.getD_eq_getElem?_getD]
  rw [List.getElem?_reverse (by omega), hlen]

theorem bswap_one (x : Nat) (hx : x < 256) : bswap 1 x = x := by
  simp only [bswap, toBytes, List.reverse_cons, List.reverse_nil, List.nil_append, ofBytes]
  omega

/-! ## Auxiliary facts for `changeEndianess` -/

theorem pow_bytes (T : UType) : 256 ^ T.sizeof = 2 ^ T.bits := by
  cases T <;> simp [UType.sizeof, UType.bits]

/-- With a non-native order the compile-time overload is the byte swap of width
`sizeof(T)`. -/
theorem changeEndianess_of_ne (native : Endian) (T : UType) (value : Nat) (endian : Endian)
    (hne : endian ≠ native) (hv : value < 2 ^ T.bits) :
    changeEndianess native T value endian = bswap T.sizeof value := by
  have hlt := bswap_lt T.sizeof value
  rw [pow_bytes] at hlt
  cases T
  · simp only [UType.bits, UType.sizeof] at hv
    simp only [changeEndianess, hne, if_false, UType.sizeof, if_true]
    exact (bswap_one value (by omega)).symm
  all_goals
    simp only [UType.sizeof] at hlt
    simp [changeEndianess, hne, UType.sizeof, UType.cast, bswap16, bswap32, bswap64,
      Nat.mod_eq_of_lt hlt]

/-- With a non-native order and a supported size the runtime-width overload on `u64`
is the byte swap of that width (the identity for size 1). -/
theorem changeEndianessSized_of_ne (native : Endian) (value size : Nat) (endian : Endian)
    (hne : endian ≠ native) (hs : size = 1 ∨ size = 2 ∨ size = 4 ∨ size = 8) :
    changeEndianessSized native .u64 value size endian
      = .ok (if size = 1 then value else bswap size value) := by
  have hlt : ∀ n, n ≤ 8 → bswap n value < 2 ^ 64 := fun n hn =>
    Nat.lt_of_lt_of_le (bswap_lt n value)
      (Nat.le_trans (Nat.pow_le_pow_right (by decide) hn) (by decide))
  rcases hs with rfl | rfl | rfl | rfl
  · simp [changeEndianessSized, hne]
  · have l := hlt 2 (by decide)
    simp only [changeEndianessSized, hne, UType.cast, UType.bits, UType.sizeof, bswap16,
      Nat.mod_eq_of_lt l]
    simp
  · have l := hlt 4 (by decide)
    simp only [changeEndianessSized, hne, UType.cast, UType.bits, UType.sizeof, bswap32,
      Nat.mod_eq_of_lt l]
    simp
  · have l := hlt 8 (by decide)
    simp only [changeEndianessSized, hne, UType.cast, UType.bits, UType.sizeof, bswap64,
      Nat.mod_eq_of_lt l]
    simp

theorem changeEndianessSized_native (native : Endian) (T : UType) (value size : Nat) :
    changeEndianessSized native T value size native = .ok value := by
  simp [changeEndianessSized]

/-! ## Auxiliary facts for `ScopeExit` -/

/-- After one or more calls of `release()` the guard is released, with the same action,
and the program state is the one before the calls. -/
theorem release_iterate {σ : Type} (g : ScopeExit σ) (w : σ) (n : Nat) :
    (Function.uncurry ScopeExit.release)^[n + 1] (g, w)
      = ({ m_released := true, m_func := g.m_func }, w) := by
  induction n with
  | zero => rfl
  | succ n ih => rw [Function.iterate_succ_apply', ih]; rfl

theorem leaveScope_nil {σ : Type} (w : σ) : leaveScope ([] : List (ScopeExit σ)) w = w := rfl

/-- The guard declared first is destroyed last. -/
theorem leaveScope_cons {σ : Type} (g : ScopeExit σ) (gs : List (ScopeExit σ)) (w : σ) :
    leaveScope (g :: gs) w = g.destruct (leaveScope gs w) := by
  simp only [leaveScope, List.reverse_cons, List.foldl_append, List.foldl_cons, List.foldl_nil]

/-! ## The claims -/

/-- C1: on a valid bit range (`toBit ≤ fromBit < 8 * sizeof(T)`) and a value of the
unsigned type `T`, `extract` is defined and returns the shift-and-mask reference
`(value >> toBit) & (2 ^ (fromBit - toBit + 1) - 1)`, a value that fits in 64 bits. -/
theorem extract_eq_shift_mask (T : UType) (fromBit toBit value : Nat)
    (hv : value < 2 ^ T.bits) (hle : toBit ≤ fromBit) (hlt : fromBit < T.bits) :
    extract T fromBit toBit value
        = some ((value >>> toBit) &&& (2 ^ (fromBit - toBit + 1) - 1))
      ∧ (value >>> toBit) &&& (2 ^ (fromBit - toBit + 1) - 1) < 2 ^ 64 := by
  have hP := promotedBits_ge T
  have hbits : T.bits ≤ 64 := by cases T <;> simp [UType.bits, UType.sizeof]
  have hbound : (value >>> toBit) &&& (2 ^ (fromBit - toBit + 1) - 1) < 2 ^ 64 := by
    refine Nat.lt_of_le_of_lt Nat.and_le_left ?_
    refine Nat.lt_of_le_of_lt ?_ (Nat.lt_of_lt_of_le hv (Nat.pow_le_pow_right (by decide) hbits))
    rw [Nat.shiftRight_eq_div_pow]
    exact Nat.div_le_self _ _
  refine ⟨?_, hbound⟩
  have h1 := shr_some T.promotedBits T.max (T.bits - 1 - (fromBit - toBit)) (by omega)
  have h2 := shl_some T.promotedBits (T.max >>> (T.bits - 1 - (fromBit - toBit))) toBit
    (by omega)
  have h3 := fun x => shr_some T.promotedBits x toBit (by omega)
  simp only [extract, extract_count T fromBit toBit hle hlt, h1, h2, h3, bind, Option.bind,
    pure, extract_mask T fromBit toBit hle hlt, and_shiftLeft_shiftRight,
    Nat.mod_eq_of_lt hbound]

/-- Witness of C1: the spec's example, `extract(7, 4, 0b1111_0000) = 0b1111` on `u8`. -/
theorem extract_eq_shift_mask_witness :
    extract .u8 7 4 0b11110000 = some 0b1111 :=
  (extract_eq_shift_mask .u8 7 4 0b11110000 (by decide) (by decide) (by decide)).1

/-- C2: for `1 ≤ currWidth ≤ targetWidth ≤ 64` and a `currWidth`-bit value whose sign bit
(bit `currWidth - 1`) is set, `signExtend` is defined, its result keeps the low
`currWidth` bits of the value and has every bit `currWidth .. targetWidth - 1` set. -/
theorem signExtend_sign_bit_set (value currWidth targetWidth : Nat) (hc1 : 1 ≤ currWidth)
    (hct : currWidth ≤ targetWidth) (ht2 : targetWidth ≤ 64) (hv : value < 2 ^ currWidth)
    (hb : value.testBit (currWidth - 1) = true) :
    ∃ r, signExtend value currWidth targetWidth = some r
      ∧ r % 2 ^ currWidth = value % 2 ^ currWidth
      ∧ ∀ i, currWidth ≤ i → i < targetWidth → r.testBit i = true := by
  refine ⟨value + (2 ^ targetWidth - 2 ^ currWidth),
    signExtend_neg value currWidth targetWidth hc1 hct ht2 hv hb, ?_, ?_⟩
  · rw [add_ones_mod value currWidth targetWidth hv hct, Nat.mod_eq_of_lt hv]
  · intro i hi1 hi2
    exact testBit_add_ones value currWidth targetWidth i hv hct hi1 hi2

/-- Witness of C2: the spec's example, `signExtend(0b1010, 4, 8) = 0b1111_1010`. -/
theorem signExtend_sign_bit_set_witness :
    signExtend 0b1010 4 8 = some 0b11111010
      ∧ ∃ r, signExtend 0b1010 4 8 = some r ∧ r % 2 ^ 4 = 0b1010 % 2 ^ 4
        ∧ ∀ i, 4 ≤ i → i < 8 → r.testBit i = true :=
  ⟨by decide, signExtend_sign_bit_set 0b1010 4 8 (by decide) (by decide) (by decide)
    (by decide) (by decide)⟩

/-- C3: for `1 ≤ currWidth ≤ targetWidth ≤ 64` and a `currWidth`-bit value whose sign bit
(bit `currWidth - 1`) is clear, `signExtend` returns the value unchanged. -/
theorem signExtend_sign_bit_clear (value currWidth targetWidth : Nat) (hc1 : 1 ≤ currWidth)
    (hct : currWidth ≤ targetWidth) (ht2 : targetWidth ≤ 64) (hv : value < 2 ^ currWidth)
    (hb : value.testBit (currWidth - 1) = false) :
    signExtend value currWidth targetWidth = some value :=
  signExtend_nonneg value currWidth targetWidth hc1 hct ht2 hv hb

/-- Witness of C3: `signExtend(0b0101, 4, 8) = 0b0101`. -/
theorem signExtend_sign_bit_clear_witness : signExtend 0b0101 4 8 = some 0b0101 :=
  signExtend_sign_bit_clear 0b0101 4 8 (by decide) (by decide) (by decide) (by decide)
    (by decide)

/-- C4: with a non-native order the compile-time-width `changeEndianess` reverses the
bytes of the full width of `T`: a 1-byte value is returned unchanged, byte `i` of the
result is byte `sizeof(T) - 1 - i` of the input for every `i < sizeof(T)`, and the result
is again a value of `T`. -/
theorem changeEndianess_reverses_bytes (native : Endian) (T : UType) (value : Nat)
    (endian : Endian) (hne : endian ≠ native) (hv : value < 2 ^ T.bits) :
    (T.sizeof = 1 → changeEndianess native T value endian = value)
      ∧ (∀ i, i < T.sizeof →
          byteAt (changeEndianess native T value endian) i = byteAt value (T.sizeof - 1 - i))
      ∧ changeEndianess native T value endian < 2 ^ T.bits := by
  rw [changeEndianess_of_ne native T value endian hne hv]
  refine ⟨?_, ?_, ?_⟩
  · intro h1
    rw [h1]
    have hb : T.bits = 8 := by simp [UType.bits, h1]
    rw [hb] at hv
    exact bswap_one value (by omega)
  · intro i hi
    rw [byteAt_bswap T.sizeof value i hi, pow_bytes, Nat.mod_eq_of_lt hv]
  · rw [← pow_bytes]
    exact bswap_lt _ _

/-- Witness of C4: the spec's example, the 4-byte value `0x01020304` swapped is
`0x04030201`. -/
theorem changeEndianess_reverses_bytes_witness :
    changeEndianess .little .u32 0x01020304 .big = 0x04030201
      ∧ (UType.sizeof .u32 = 1 → changeEndianess .little .u32 0x01020304 .big = 0x01020304)
      ∧ (∀ i, i < UType.sizeof .u32 →
          byteAt (changeEndianess .little .u32 0x01020304 .big) i
            = byteAt 0x01020304 (UType.sizeof .u32 - 1 - i))
      ∧ changeEndianess .little .u32 0x01020304 .big < 2 ^ UType.bits .u32 :=
  ⟨by decide, changeEndianess_reverses_bytes .little .u32 0x01020304 .big (by decide)
    (by decide)⟩

/-- C5: the compile-time-width `changeEndianess` is an involution on the values of `T`,
for every width and every byte order. -/
theorem changeEndianess_involution (native : Endian) (T : UType) (value : Nat)
    (endian : Endian) (hv : value < 2 ^ T.bits) :
    changeEndianess native T (changeEndianess native T value endian) endian = value := by
  by_cases h : endian = native
  · simp [changeEndianess, h]
  · have hlt : bswap T.sizeof value < 2 ^ T.bits := by
      rw [← pow_bytes]
      exact bswap_lt _ _
    rw [changeEndianess_of_ne native T value endian h hv,
      changeEndianess_of_ne native T _ endian h hlt, bswap_bswap, pow_bytes,
      Nat.mod_eq_of_lt hv]

/-- Witness of C5: swapping the 2-byte value `0xABCD` twice on a little-endian host. -/
theorem changeEndianess_involution_witness :
    changeEndianess .little .u16 (changeEndianess .little .u16 0xABCD .big) .big = 0xABCD :=
  changeEndianess_involution .little .u16 0xABCD .big (by decide)

/-- C6: the native order is a no-op: the compile-time-width overload returns the value
for every `T`, and the runtime-width overload on `u64` returns the whole value; this holds
for every size, so for every size in {1, 2, 4, 8}. -/
theorem changeEndianess_native_noop (native : Endian) (T : UType) (value size : Nat) :
    changeEndianess native T value native = value
      ∧ changeEndianessSized native .u64 value size native = .ok value := by
  refine ⟨?_, changeEndianessSized_native native .u64 value size⟩
  simp [changeEndianess]

/-- C7, the claim as stated fails: on a little-endian host, runtime-width
`changeEndianess(0x0102, 3, little)` returns `0x0102` although 3 is not a supported
size, so failure is not equivalent to an unsupported size. -/
theorem changeEndianessSized_fails_iff_counterexample :
    changeEndianessSized .little .u64 0x0102 3 .little = .ok 0x0102
      ∧ ¬ (changeEndianessSized .little .u64 0x0102 3 .little
              = .error (.invalid_argument "Invalid value size!")
            ↔ ¬ ((3 : Nat) = 1 ∨ (3 : Nat) = 2 ∨ (3 : Nat) = 4 ∨ (3 : Nat) = 8)) := by
  have h : changeEndianessSized .little .u64 0x0102 3 .little = .ok 0x0102 :=
    changeEndianessSized_native .little .u64 0x0102 3
  refine ⟨h, ?_⟩
  rw [h]
  intro hiff
  have := hiff.mpr (by decide)
  cases this

/-- C7 as amended: runtime-width `changeEndianess` fails with the invalid-argument error
if and only if the order is not the native one and the size is not one of {1, 2, 4, 8};
with the native order it returns the value unchanged for every size; with size 3 it
fails for every non-native order and returns the value for the native order. -/
theorem changeEndianessSized_fails_iff (native : Endian) (T : UType) (value size : Nat)
    (endian : Endian) :
    (changeEndianessSized native T value size endian
          = .error (.invalid_argument "Invalid value size!")
        ↔ endian ≠ native ∧ ¬ (size = 1 ∨ size = 2 ∨ size = 4 ∨ size = 8))
      ∧ changeEndianessSized native T value size native = .ok value
      ∧ (endian ≠ native → changeEndianessSized native T value 3 endian
          = .error (.invalid_argument "Invalid value size!"))
      ∧ changeEndianessSized native T value 3 native = .ok value := by
  refine ⟨?_, changeEndianessSized_native native T value size, ?_,
    changeEndianessSized_native native T value 3⟩
  · unfold changeEndianessSized
    by_cases h : endian = native
    · simp [h]
    · by_cases h1 : size = 1
      · simp [h, h1]
      · by_cases h2 : size = 2
        · simp [h, h2]
        · by_cases h4 : size = 4
          · simp [h, h4]
          · by_cases h8 : size = 8
            · simp [h, h8]
            · simp [h, h1, h2, h4, h8]
  · intro h
    simp [changeEndianessSized, h]

/-- C8: for every type `T`, every value of `T` and every order, the runtime-width overload
on the zero-extended value with `size = sizeof(T)` succeeds and returns the zero-extended
result of the compile-time-width overload. -/
theorem changeEndianessSized_agrees (native : Endian) (T : UType) (value : Nat)
    (endian : Endian) (hv : value < 2 ^ T.bits) :
    changeEndianessSized native .u64 (zeroExtend64 value) T.sizeof endian
      = .ok (zeroExtend64 (changeEndianess native T value endian)) := by
  have hb : T.bits ≤ 64 := by cases T <;> simp [UType.bits, UType.sizeof]
  have h64 : ∀ x, x < 2 ^ T.bits → zeroExtend64 x = x := fun x hx =>
    Nat.mod_eq_of_lt (Nat.lt_of_lt_of_le hx (Nat.pow_le_pow_right (by decide) hb))
  rw [h64 value hv]
  by_cases h : endian = native
  · subst h
    rw [changeEndianessSized_native]
    simp [changeEndianess, h64 value hv]
  · have hs : T.sizeof = 1 ∨ T.sizeof = 2 ∨ T.sizeof = 4 ∨ T.sizeof = 8 := by
      cases T <;> simp [UType.sizeof]
    have hlt : bswap T.sizeof value < 2 ^ T.bits := by
      rw [← pow_bytes]
      exact bswap_lt _ _
    rw [changeEndianessSized_of_ne native value T.sizeof endian h hs,
      changeEndianess_of_ne native T value endian h hv, h64 _ hlt]
    by_cases h1 : T.sizeof = 1
    · have hb8 : T.bits = 8 := by simp [UType.bits, h1]
      rw [hb8] at hv
      simp only [h1, if_true]
      rw [bswap_one value (by omega)]
    · simp only [h1, if_false]

/-- Witness of C8: the 2-byte value `0xABCD` on a little-endian host, big-endian order. -/
theorem changeEndianessSized_agrees_witness :
    changeEndianessSized .little .u64 (zeroExtend64 0xABCD) (UType.sizeof .u16) .big
      = .ok (zeroExtend64 (changeEndianess .little .u16 0xABCD .big)) :=
  changeEndianessSized_agrees .little .u16 0xABCD .big (by decide)

/-- C9, the claim as stated fails: on a little-endian host the 64-bit value `0x10000`
with size 2 and big-endian order is sent to 0 by the first call (only its two low bytes
are swapped), and the second call returns 0, not `0x10000`. -/
theorem changeEndianessSized_involution_counterexample :
    (0x10000 : Nat) < 2 ^ 64
      ∧ changeEndianessSized .little .u64 0x10000 2 .big = .ok 0
      ∧ (changeEndianessSized .little .u64 0x10000 2 .big).bind
          (fun w => changeEndianessSized .little .u64 w 2 .big) = .ok 0
      ∧ (changeEndianessSized .little .u64 0x10000 2 .big).bind
          (fun w => changeEndianessSized .little .u64 w 2 .big) ≠ .ok 0x10000 := by
  have h1 : changeEndianessSized .little .u64 0x10000 2 .big = .ok 0 := rfl
  have h2 : (changeEndianessSized .little .u64 0x10000 2 .big).bind
      (fun w => changeEndianessSized .little .u64 w 2 .big) = .ok 0 := rfl
  refine ⟨by decide, h1, h2, ?_⟩
  rw [h2]
  intro h
  have h0 : (0 : Nat) = 0x10000 := Except.ok.inj h
  exact absurd h0 (by decide)

/-- C9 as amended: for every size in {1, 2, 4, 8} and every order, applying the
runtime-width `changeEndianess` on `u64` twice succeeds; it returns the value when the
order is native or the size is 1, and the low `size` bytes of the value otherwise, so it
returns the value whenever the value fits in `size` bytes. -/
theorem changeEndianessSized_round_trip (native : Endian) (value size : Nat)
    (endian : Endian) (hs : size = 1 ∨ size = 2 ∨ size = 4 ∨ size = 8) :
    (changeEndianessSized native .u64 value size endian).bind
        (fun w => changeEndianessSized native .u64 w size endian)
        = .ok (if endian = native ∨ size = 1 then value else value % 2 ^ (8 * size))
      ∧ (value < 2 ^ (8 * size) →
          (changeEndianessSized native .u64 value size endian).bind
            (fun w => changeEndianessSized native .u64 w size endian) = .ok value) := by
  have key : (changeEndianessSized native .u64 value size endian).bind
        (fun w => changeEndianessSized native .u64 w size endian)
        = .ok (if endian = native ∨ size = 1 then value else value % 2 ^ (8 * size)) := by
    by_cases h : endian = native
    · subst h
      simp [changeEndianessSized_native, Except.bind]
    · rw [changeEndianessSized_of_ne native value size endian h hs]
      simp only [Except.bind]
      rw [changeEndianessSized_of_ne native _ size endian h hs]
      by_cases h1 : size = 1
      · simp [h1]
      · have e : (256 : Nat) ^ size = 2 ^ (8 * size) := by
          rw [Nat.pow_mul]
        simp only [h, h1, if_false, or_self, bswap_bswap, e]
  refine ⟨key, ?_⟩
  intro hv
  rw [key]
  by_cases h : endian = native ∨ size = 1
  · simp only [h, if_true]
  · simp only [h, if_false, Nat.mod_eq_of_lt hv]

/-- Witness of C9 as amended: the 2-byte value `0xABCD`, size 2, on a little-endian host
with big-endian order. -/
theorem changeEndianessSized_round_trip_witness :
    (changeEndianessSized .little .u64 0xABCD 2 .big).bind
        (fun w => changeEndianessSized .little .u64 w 2 .big)
        = .ok (if Endian.big = Endian.little ∨ (2 : Nat) = 1 then 0xABCD
            else 0xABCD % 2 ^ (8 * 2))
      ∧ ((0xABCD : Nat) < 2 ^ (8 * 2) →
          (changeEndianessSized .little .u64 0xABCD 2 .big).bind
            (fun w => changeEndianessSized .little .u64 w 2 .big) = .ok 0xABCD) :=
  changeEndianessSized_round_trip .little 0xABCD 2 .big (by decide)

/-- C10, the claim as stated fails: `signExtend(0b1010, 4, 4)` is `0b1010`, whose bit 4
is clear although the sign bit 3 is set; no bit above the field is set. -/
theorem signExtend_equal_widths_counterexample :
    (1 ≤ 4 ∧ 4 < 64 ∧ 0b1010 < 2 ^ 4 ∧ Nat.testBit 0b1010 (4 - 1) = true)
      ∧ signExtend 0b1010 4 4 = some 0b1010
      ∧ Nat.testBit 0b1010 4 = false
      ∧ ¬ ∃ r, signExtend 0b1010 4 4 = some r
          ∧ ∀ i, 4 ≤ i → i ≤ 63 → Nat.testBit r i = true := by
  have h : signExtend 0b1010 4 4 = some 0b1010 := by decide
  refine ⟨by decide, h, by decide, ?_⟩
  rintro ⟨r, hr, hall⟩
  rw [h] at hr
  cases hr
  exact absurd (hall 4 (by decide) (by decide)) (by decide)

/-- C10 as amended: for `1 ≤ w < 64` and a `w`-bit value whose sign bit `w - 1` is set,
`signExtend(value, w, w)` returns the value itself, so every bit of the 64-bit result at
positions `w .. 63` is 0: the final right shift is the logical shift of an unsigned
word. -/
theorem signExtend_equal_widths (value w : Nat) (hw1 : 1 ≤ w) (hw2 : w < 64)
    (hv : value < 2 ^ w) (hb : value.testBit (w - 1) = true) :
    signExtend value w w = some value
      ∧ ∀ i, w ≤ i → i ≤ 63 → value.testBit i = false := by
  refine ⟨?_, ?_⟩
  · have h := signExtend_neg value w w hw1 (Nat.le_refl w) (by omega) hv hb
    rwa [Nat.sub_self, Nat.add_zero] at h
  · intro i hi _
    exact Nat.testBit_lt_two_pow
      (Nat.lt_of_lt_of_le hv (Nat.pow_le_pow_right (by decide) hi))

/-- Witness of C10 as amended: `signExtend(0b1010, 4, 4) = 0b1010`. -/
theorem signExtend_equal_widths_witness :
    signExtend 0b1010 4 4 = some 0b1010
      ∧ ∀ i, 4 ≤ i → i ≤ 63 → Nat.testBit 0b1010 i = false :=
  signExtend_equal_widths 0b1010 4 (by decide) (by decide) (by decide) (by decide)

/-- C11: for `1 ≤ currWidth ≤ targetWidth ≤ 64` and every 64-bit value, `signExtend` is
defined and its result agrees with the value modulo `2 ^ currWidth`. -/
theorem signExtend_truncate (value currWidth targetWidth : Nat) (hv : value < 2 ^ 64)
    (hc1 : 1 ≤ currWidth) (hct : currWidth ≤ targetWidth) (ht2 : targetWidth ≤ 64) :
    ∃ r, signExtend value currWidth targetWidth = some r
      ∧ r % 2 ^ currWidth = value % 2 ^ currWidth := by
  have _h64 := hv
  refine ⟨_, signExtend_eq value currWidth targetWidth hc1 (by omega) (by omega) ht2, ?_⟩
  rw [Nat.mod_mod_of_dvd _ (Nat.pow_dvd_pow 2 hct)]
  exact sub64_xor_mod value currWidth hc1 (by omega)

/-- Witness of C11: `signExtend(0xFA, 4, 8) = 0xEA`, and both are `0xA` modulo 16. -/
theorem signExtend_truncate_witness :
    signExtend 0xFA 4 8 = some 0xEA
      ∧ ∃ r, signExtend 0xFA 4 8 = some r ∧ r % 2 ^ 4 = 0xFA % 2 ^ 4 :=
  ⟨by decide, signExtend_truncate 0xFA 4 8 (by decide) (by decide) (by decide) (by decide)⟩

/-- C18: for every 64-bit value and all widths `currWidth`, `targetWidth` in `1 .. 64`,
`signExtend` is defined and its result is below `2 ^ targetWidth`: the bits
`targetWidth .. 63` of the result are zero. -/
theorem signExtend_lt_target (value currWidth targetWidth : Nat) (hv : value < 2 ^ 64)
    (hc1 : 1 ≤ currWidth) (hc2 : currWidth ≤ 64) (ht1 : 1 ≤ targetWidth)
    (ht2 : targetWidth ≤ 64) :
    ∃ r, signExtend value currWidth targetWidth = some r ∧ r < 2 ^ targetWidth
      ∧ ∀ i, targetWidth ≤ i → r.testBit i = false := by
  have _h64 := hv
  have hlt : sub64 (value ^^^ 2 ^ (currWidth - 1)) (2 ^ (currWidth - 1)) % 2 ^ targetWidth
      < 2 ^ targetWidth := Nat.mod_lt _ (Nat.two_pow_pos targetWidth)
  refine ⟨_, signExtend_eq value currWidth targetWidth hc1 hc2 ht1 ht2, hlt, ?_⟩
  intro i hi
  exact Nat.testBit_lt_two_pow (Nat.lt_of_lt_of_le hlt (Nat.pow_le_pow_right (by decide) hi))

/-- Witness of C18: the negative 4-bit field `0b1010` extended to 8 bits is 250, below
`2 ^ 8`. -/
theorem signExtend_lt_target_witness :
    signExtend 0b1010 4 8 = some 250
      ∧ ∃ r, signExtend 0b1010 4 8 = some r ∧ r < 2 ^ 8
        ∧ ∀ i, 8 ≤ i → r.testBit i = false :=
  ⟨by decide, signExtend_lt_target 0b1010 4 8 (by decide) (by decide) (by decide)
    (by decide) (by decide)⟩

/-- C19: for `1 ≤ a ≤ b ≤ c ≤ 64` and an `a`-bit value, extending from `a` to `b` bits and
then from `b` to `c` bits is defined and gives the result of extending from `a` to `c`
bits. -/
theorem signExtend_compose (value a b c : Nat) (ha : 1 ≤ a) (hab : a ≤ b) (hbc : b ≤ c)
    (hc : c ≤ 64) (hv : value < 2 ^ a) :
    ∃ r, signExtend value a c = some r
      ∧ (signExtend value a b).bind (fun w => signExtend w b c) = some r := by
  have hpab : 2 ^ a ≤ 2 ^ b := Nat.pow_le_pow_right (by decide) hab
  have hpbc : 2 ^ b ≤ 2 ^ c := Nat.pow_le_pow_right (by decide) hbc
  by_cases hbit : value.testBit (a - 1) = true
  · have h1 := signExtend_neg value a b ha hab (by omega) hv hbit
    have h3 := signExtend_neg value a c ha (by omega) hc hv hbit
    have hw : value + (2 ^ b - 2 ^ a) < 2 ^ b := by omega
    have hwbit : (value + (2 ^ b - 2 ^ a)).testBit (b - 1) = true := by
      by_cases hlt : a < b
      · exact testBit_add_ones value a b (b - 1) hv hab (by omega) (by omega)
      · have e : a = b := by omega
        subst e
        rwa [Nat.sub_self, Nat.add_zero]
    have h2 := signExtend_neg (value + (2 ^ b - 2 ^ a)) b c (by omega) hbc hc hw hwbit
    refine ⟨_, h3, ?_⟩
    rw [h1, Option.some_bind, h2]
    congr 1
    omega
  · have hbit0 : value.testBit (a - 1) = false := by
      cases hh : value.testBit (a - 1)
      · rfl
      · exact absurd hh hbit
    have h1 := signExtend_nonneg value a b ha hab (by omega) hv hbit0
    have h3 := signExtend_nonneg value a c ha (by omega) hc hv hbit0
    have hw : value < 2 ^ b := by omega
    have hwbit : value.testBit (b - 1) = false := by
      by_cases hlt : a < b
      · exact Nat.testBit_lt_two_pow
          (Nat.lt_of_lt_of_le hv (Nat.pow_le_pow_right (by decide) (by omega)))
      · have e : a = b := by omega
        subst e
        exact hbit0
    have h2 := signExtend_nonneg value b c (by omega) hbc hc hw hwbit
    exact ⟨value, h3, by rw [h1, Option.some_bind, h2]⟩

/-- Witness of C19: the 4-bit field `0b1010` extended to 8 and then to 16 bits is
`0xFFFA`, as when it is extended to 16 bits at once. -/
theorem signExtend_compose_witness :
    signExtend 0b1010 4 16 = some 0xFFFA
      ∧ ∃ r, signExtend 0b1010 4 16 = some r
        ∧ (signExtend 0b1010 4 8).bind (fun w => signExtend w 8 16) = some r :=
  ⟨by decide, signExtend_compose 0b1010 4 8 16 (by decide) (by decide) (by decide)
    (by decide) (by decide)⟩

/-- C12: on a valid range (`toBit ≤ fromBit < 8 * sizeof(T)`) and a value of `T`, `extract`
is defined and its result is below `2 ^ (fromBit - toBit + 1)`: it fits in the width of
the window. -/
theorem extract_lt_window (T : UType) (fromBit toBit value : Nat)
    (hv : value < 2 ^ T.bits) (hle : toBit ≤ fromBit) (hlt : fromBit < T.bits) :
    ∃ r, extract T fromBit toBit value = some r ∧ r < 2 ^ (fromBit - toBit + 1) :=
  ⟨_, extract_on_range T fromBit toBit value hv hle hlt,
    Nat.and_lt_two_pow _ (Nat.sub_lt (Nat.two_pow_pos _) (by decide))⟩

/-- Witness of C12: `extract(7, 4, 0b1111_0000)` on `u8` is below `2 ^ 4`. -/
theorem extract_lt_window_witness :
    ∃ r, extract .u8 7 4 0b11110000 = some r ∧ r < 2 ^ (7 - 4 + 1) :=
  extract_lt_window .u8 7 4 0b11110000 (by decide) (by decide) (by decide)

/-- C13: for a value of `T` and `fromBit < 8 * sizeof(T)`, `extract(fromBit, fromBit, value)`
is defined and is 1 if bit `fromBit` of the value is set and 0 otherwise. -/
theorem extract_single_bit (T : UType) (fromBit value : Nat)
    (hv : value < 2 ^ T.bits) (hlt : fromBit < T.bits) :
    extract T fromBit fromBit value = some (if value.testBit fromBit then 1 else 0) := by
  rw [extract_on_range T fromBit fromBit value hv (Nat.le_refl _) hlt, Nat.sub_self,
    Nat.testBit_to_div_mod, Nat.shiftRight_eq_div_pow]
  have e : (2 : Nat) ^ (0 + 1) - 1 = 1 := by decide
  rw [e, Nat.and_one_is_mod]
  by_cases h : value / 2 ^ fromBit % 2 = 1
  · simp [h]
  · have h0 : value / 2 ^ fromBit % 2 = 0 := by omega
    simp [h0]

/-- Witness of C13: bit 5 of the `u8` value `0b0010_0000` is 1. -/
theorem extract_single_bit_witness :
    extract .u8 5 5 0b00100000 = some (if Nat.testBit 0b00100000 5 then 1 else 0) :=
  extract_single_bit .u8 5 0b00100000 (by decide) (by decide)

/-- C17: on a valid range the mask built by `extract` is defined and equals
`2 ^ (fromBit + 1) - 2 ^ toBit`: its set bits are exactly the positions
`toBit .. fromBit`, so neither the left shift nor the conversion to `T` loses a bit. -/
theorem extractMask_window (T : UType) (fromBit toBit : Nat) (hle : toBit ≤ fromBit)
    (hlt : fromBit < T.bits) :
    extractMask T fromBit toBit = some (2 ^ (fromBit + 1) - 2 ^ toBit)
      ∧ 2 ^ (fromBit + 1) - 2 ^ toBit < 2 ^ T.bits
      ∧ ∀ i, (2 ^ (fromBit + 1) - 2 ^ toBit).testBit i = decide (toBit ≤ i ∧ i ≤ fromBit) := by
  have e : fromBit - toBit + 1 + toBit = fromBit + 1 := by omega
  have hm : (2 ^ (fromBit - toBit + 1) - 1) <<< toBit = 2 ^ (fromBit + 1) - 2 ^ toBit := by
    rw [ones_shiftLeft, e]
  refine ⟨?_, ?_, ?_⟩
  · rw [extractMask_on_range T fromBit toBit hle hlt, hm]
  · have h1 : 2 ^ (fromBit + 1) ≤ 2 ^ T.bits := Nat.pow_le_pow_right (by decide) hlt
    have h2 := Nat.two_pow_pos toBit
    have h3 := Nat.two_pow_pos T.bits
    omega
  · intro i
    rw [← hm, testBit_window]
    congr 1
    apply propext
    omega

/-- Witness of C17: the mask of `extract(7, 4, _)` on `u8` is `0b1111_0000`. -/
theorem extractMask_window_witness :
    extractMask .u8 7 4 = some 0b11110000
      ∧ (extractMask .u8 7 4 = some (2 ^ (7 + 1) - 2 ^ 4)
        ∧ 2 ^ (7 + 1) - 2 ^ 4 < 2 ^ UType.bits .u8
        ∧ ∀ i, Nat.testBit (2 ^ (7 + 1) - 2 ^ 4) i = decide (4 ≤ i ∧ i ≤ 7)) :=
  ⟨by decide, extractMask_window .u8 7 4 (by decide) (by decide)⟩

/-- C20: extracting the full range `8 * sizeof(T) - 1 .. 0` of a value of `T` is defined
and returns the value, zero-extended to 64 bits; the shift count of the mask
construction is 0 and the mask is the all-ones value of `T`. -/
theorem extract_full_range (T : UType) (value : Nat) (hv : value < 2 ^ T.bits) :
    extract T (8 * T.sizeof - 1) 0 value = some (zeroExtend64 value)
      ∧ zeroExtend64 value = value
      ∧ toSizeT (((T.sizeof * 8 : Nat) : Int) - 1
          - toSizeT (((8 * T.sizeof - 1 : Nat) : Int) - ((0 : Nat) : Int))) = 0
      ∧ extractMask T (8 * T.sizeof - 1) 0 = some T.max := by
  have hbits : T.bits ≤ 64 := by cases T <;> simp [UType.bits, UType.sizeof]
  have hpos : 1 ≤ T.bits := by cases T <;> simp [UType.bits, UType.sizeof]
  have e8 : 8 * T.sizeof - 1 = T.bits - 1 := by rw [UType.bits, Nat.mul_comm]
  have hz : zeroExtend64 value = value :=
    Nat.mod_eq_of_lt (Nat.lt_of_lt_of_le hv (Nat.pow_le_pow_right (by decide) hbits))
  have ek : T.bits - 1 - 0 + 1 = T.bits := by omega
  refine ⟨?_, hz, ?_, ?_⟩
  · rw [hz, e8, extract_on_range T (T.bits - 1) 0 value hv (Nat.zero_le _) (by omega), ek,
      Nat.shiftRight_zero, Nat.and_pow_two_sub_one_of_lt_two_pow hv]
  · rw [e8, extract_count T (T.bits - 1) 0 (Nat.zero_le _) (by omega)]
    have e0 : T.bits - 1 - (T.bits - 1 - 0) = 0 := by omega
    rw [e0]
    rfl
  · rw [e8, extractMask_on_range T (T.bits - 1) 0 (Nat.zero_le _) (by omega), ek,
      Nat.shiftLeft_zero, UType.max]

/-- Witness of C20: the full range of the `u64` value `2 ^ 64 - 1` is the value itself,
with mask `2 ^ 64 - 1`. -/
theorem extract_full_range_witness :
    extract .u64 (8 * UType.sizeof .u64 - 1) 0 (2 ^ 64 - 1) = some (zeroExtend64 (2 ^ 64 - 1))
      ∧ zeroExtend64 (2 ^ 64 - 1) = 2 ^ 64 - 1
      ∧ toSizeT (((UType.sizeof .u64 * 8 : Nat) : Int) - 1
          - toSizeT (((8 * UType.sizeof .u64 - 1 : Nat) : Int) - ((0 : Nat) : Int))) = 0
      ∧ extractMask .u64 (8 * UType.sizeof .u64 - 1) 0 = some (UType.max .u64) :=
  extract_full_range .u64 (2 ^ 64 - 1) (by decide)

/-- C14: with an action that appends an entry to a log, destroying a guard on which
`release()` was never called appends the entry exactly once (for any action `f` the
destructor applies `f` once), and destroying a guard on which `release()` was called
`n + 1` times leaves the log, and any state under any action, unchanged. -/
theorem ScopeExit_runs_once_unless_released {α σ : Type} (entry : α) (log : List α)
    (f : σ → σ) (w : σ) (n : Nat) :
    (ScopeExit.construct (logAction entry)).destruct log = log ++ [entry]
      ∧ ((Function.uncurry ScopeExit.release)^[n + 1]
            (ScopeExit.construct (logAction entry), log)).1.destruct
          ((Function.uncurry ScopeExit.release)^[n + 1]
            (ScopeExit.construct (logAction entry), log)).2 = log
      ∧ (ScopeExit.construct f).destruct w = f w
      ∧ ((Function.uncurry ScopeExit.release)^[n + 1] (ScopeExit.construct f, w)).1.destruct
          ((Function.uncurry ScopeExit.release)^[n + 1] (ScopeExit.construct f, w)).2 = w := by
  refine ⟨rfl, ?_, rfl, ?_⟩
  · rw [release_iterate]
    rfl
  · rw [release_iterate]
    rfl

/-- C15: `release()` is idempotent: a second call changes neither the guard nor the
program state; a call leaves the program state and the stored action as they are (the
action is not run) and sets the released flag. -/
theorem ScopeExit_release_idempotent {σ : Type} (g : ScopeExit σ) (w : σ) :
    ScopeExit.release (g.release w).1 (g.release w).2 = g.release w
      ∧ (g.release w).2 = w
      ∧ (g.release w).1.m_func = g.m_func
      ∧ (g.release w).1.m_released = true :=
  ⟨rfl, rfl, rfl, rfl⟩

/-- C16: when the guards of a block are given in declaration order, each with a log
entry and the fact whether `release()` was called on it, the entries appended at scope
exit are those of the guards not released, in reverse declaration order; guards `A`
then `B` give the log `B, A`, and `A` alone if `B` was released. -/
theorem leaveScope_reverse_order {α : Type} (decls : List (α × Bool)) (log : List α) :
    leaveScope (decls.map (fun d =>
        if d.2 then ((ScopeExit.construct (logAction d.1)).release log).1
        else ScopeExit.construct (logAction d.1))) log
        = log ++ ((decls.filter (fun d => !d.2)).map (fun d => d.1)).reverse
      ∧ leaveScope [ScopeExit.construct (logAction "A"), ScopeExit.construct (logAction "B")] []
        = ["B", "A"]
      ∧ leaveScope [ScopeExit.construct (logAction "A"),
          ((ScopeExit.construct (logAction "B")).release []).1] [] = ["A"] := by
  refine ⟨?_, rfl, rfl⟩
  induction decls with
  | nil => simp [leaveScope_nil]
  | cons d ds ih =>
    rw [List.map_cons, leaveScope_cons, ih]
    rcases d with ⟨a, b⟩
    cases b
    · simp [ScopeExit.construct, ScopeExit.destruct, logAction]
    · simp [ScopeExit.construct, ScopeExit.release, ScopeExit.destruct]

end hex
